import Mathlib

/-!
Verification of the migration orchestration engine of oracle-migrate.

The embedding follows src/lib/set.js (class Set: the engine), src/lib/migrate.js
(the registry loader) and src/lib/oracledb.js (history-table bootstrap).

Modelling conventions:
  * A migration action (the up or down function of a migration file) is external
    code; the engine only invokes it once per run and observes the callback
    result.  An action is therefore embedded as its observed result: an
    `Option String`, where `none` means the callback was invoked with no error
    and `some e` means it was invoked with error `e`.
  * The durable database table MIGRATIONS is embedded as the list of its TITLE
    column values, in insertion order (`store`).  INSERT appends, DELETE WHERE
    TITLE = t removes all rows with that title.
  * The in-memory engine state mirrors the fields of class Set: `migrations`
    (the registry, in insertion order) and `history` (the sorted title list
    produced by load()).  `trace` records the emitted migration events, i.e.
    the sequence of (title, direction) pairs, one per invoked action, emitted
    just before the action runs.
  * JavaScript truthiness matters in two places: `Array.prototype.find` over the
    history returns the found string, and the engine negates it, so a found
    empty string behaves like not-found.  This is embedded by `truthyFind`.
  * Lexicographic string order (the order of the default JavaScript string sort
    and comparison used on titles) is embedded executably by `charListLt` over
    the character lists.
-/

/-- Lexicographic strict order on character lists, comparing code points:
this is the order underlying JavaScript string comparison for the ASCII
titles this system works with. -/
def charListLt : List Char → List Char → Bool
  | _, [] => false
  | [], _ :: _ => true
  | a :: as, b :: bs =>
    if a.toNat < b.toNat then true
    else if a.toNat = b.toNat then charListLt as bs
    else false

/-- Strict ascending (lexicographic) order on titles. -/
def titleLt (a b : String) : Bool := charListLt a.data b.data

/-- Non-strict title order, used by the JavaScript default sort. -/
def titleLe (a b : String) : Bool := !(charListLt b.data a.data)

/-- Direction of a migration run, the first argument of Set.migrate. -/
inductive Direction where
  | up
  | down
deriving DecidableEq

/-- One migration record (function Migration in src/lib/set.js): a title and the
observed results of its up and down actions (`none` = the action succeeds). -/
structure Migration where
  title : String
  up : Option String
  down : Option String
deriving DecidableEq

/-- The state touched by one engine run: the registry (`this.migrations`), the
in-memory history snapshot (`this.history`), the durable MIGRATIONS table
(`store`, titles in insertion order) and the list of emitted migration
events (`trace`). -/
structure SetState where
  migrations : List Migration
  history : List String
  store : List String
  trace : List (String × Direction)
deriving DecidableEq

/-- `migration[direction]` in src/lib/set.js line 277: select the action result
for the requested direction. -/
def action (m : Migration) : Direction → Option String
  | Direction.up => m.up
  | Direction.down => m.down

/-- Set.save (src/lib/set.js lines 84-92): INSERT one row with the given title
into the MIGRATIONS table. -/
def save (st : SetState) (title : String) : SetState :=
  { st with store := st.store ++ [title] }

/-- Set.removeEntry via oracledb.removeMigrateEntry (DELETE FROM MIGRATIONS
WHERE TITLE = :title). -/
def removeEntry (st : SetState) (title : String) : SetState :=
  { st with store := st.store.filter (fun t => !(t == title)) }

/-- JavaScript truthiness of an `Array.prototype.find` result over a string
array: `undefined` is falsy, and so is the empty string. -/
def truthyFind (found : Option String) : Bool :=
  match found with
  | none => false
  | some s => !(s == "")

/-- The pending sequence (src/lib/set.js line 185): the registry filtered to
migrations whose title is not found (truthily) in the history snapshot. -/
def pendingOf (st : SetState) : List Migration :=
  st.migrations.filter (fun e => !(truthyFind (st.history.find? (fun eh => eh == e.title))))

/-- The registry restricted to titles found (truthily) in the history snapshot,
in registry order (src/lib/set.js line 254). -/
def historyListOf (st : SetState) : List Migration :=
  st.migrations.filter (fun e => truthyFind (st.history.find? (fun h => h == e.title)))

/-- The loop of the down-all branch (src/lib/set.js lines 228-236): map each
history title to its registry migration, failing with the first title that has
no matching migration. -/
def collectFromHistory : List String → List Migration → Except String (List Migration)
  | [], _ => Except.ok []
  | h :: rest, migs =>
    match migs.find? (fun e => e.title == h) with
    | none => Except.error h
    | some o =>
      match collectFromHistory rest migs with
      | Except.error x => Except.error x
      | Except.ok tail => Except.ok (o :: tail)

/-- The execution loop `next` (src/lib/set.js lines 270-294).  The selected
migration list may hold `none` entries (the down branch with no target pushes
the result of `Array.prototype.find`, which may be `undefined`); a falsy entry
ends the run successfully.  For each real migration the engine emits the
migration event, invokes the action, stops with the action error on failure,
and otherwise saves (up) or removes (down) the history row and recurses. -/
def next (dir : Direction) : List (Option Migration) → SetState → SetState × Option String
  | [], st => (st, none)
  | none :: _, st => (st, none)
  | some m :: rest, st =>
    let st1 := { st with trace := st.trace ++ [(m.title, dir)] }
    match action m dir with
    | some err => (st1, some err)
    | none =>
      match dir with
      | Direction.up => next Direction.up rest (save st1 m.title)
      | Direction.down => next Direction.down rest (removeEntry st1 m.title)

/-- Set._migrate (src/lib/set.js lines 172-295): select the migration list for
the requested direction and optional target, then run it with `next`.  The
returned `Option String` is the value passed to the callback. -/
def _migrate (st : SetState) (direction : Direction) (migrationName : Option String) :
    SetState × Option String :=
  match direction with
  | Direction.up =>
    let migrations := pendingOf st
    match migrationName with
    | none => next Direction.up (migrations.map some) st
    | some name =>
      match migrations.findIdx? (fun e => e.title == name) with
      | none =>
        if truthyFind (st.history.find? (fun filename => filename == name)) then
          (st, some ("File \x27" ++ name ++ "\x27 has been executed before"))
        else
          (st, some ("File \x27" ++ name ++ "\x27 not exist "))
      | some index => next Direction.up ((migrations.take (index + 1)).map some) st
  | Direction.down =>
    match migrationName with
    | none =>
      let last := st.history.getLast?
      let st1 := { st with history := st.history.dropLast }
      next Direction.down [st1.migrations.find? (fun e => some e.title == last)] st1
    | some name =>
      if name = "all" then
        match collectFromHistory st.history st.migrations with
        | Except.error h =>
          (st, some ("File from history \x27" ++ h ++ "\x27 can not be found in local files"))
        | Except.ok ms => next Direction.down (ms.reverse.map some) st
      else
        match st.history.findIdx? (fun e => e == name) with
        | none => (st, some ("File \x27" ++ name ++ "\x27 not found"))
        | some index =>
          next Direction.down (((historyListOf st).drop index).reverse.map some) st

/-- Set.up (src/lib/set.js lines 136-138): forwards to _migrate in the up
direction; the callback receives the _migrate result unchanged. -/
def runUp (st : SetState) (migrationName : Option String) : SetState × Option String :=
  _migrate st Direction.up migrationName

/-- Set.down (src/lib/set.js lines 125-127): forwards to _migrate in the down
direction. -/
def runDown (st : SetState) (migrationName : Option String) : SetState × Option String :=
  _migrate st Direction.down migrationName

/-- The sort applied by Set.load (src/lib/set.js line 104) and by the loader:
the default JavaScript string sort, i.e. ascending lexicographic order. -/
def jsSort (l : List String) : List String :=
  List.insertionSort (fun a b => titleLe a b = true) l

/-- A fresh engine state for a new CLI invocation (commands.js performMigration
creates a new Set per command): the registry is rebuilt from the same files,
and load() reads the MIGRATIONS table and sorts the titles. -/
def reinit (migs : List Migration) (store : List String) : SetState :=
  { migrations := migs, history := jsSort store, store := store, trace := [] }

/- ------------------------------------------------------------------ -/
/- Basic facts about the title order                                   -/
/- ------------------------------------------------------------------ -/

theorem charListLt_irrefl (l : List Char) : charListLt l l = false := by
  induction l with
  | nil => rfl
  | cons a as ih => simp [charListLt, ih]

theorem charListLt_asymm {a b : List Char} (h : charListLt a b = true) :
    charListLt b a = false := by
  induction a generalizing b with
  | nil =>
    cases b with
    | nil => exact Bool.noConfusion h
    | cons y ys => rfl
  | cons x xs ih =>
    cases b with
    | nil => exact Bool.noConfusion h
    | cons y ys =>
      rw [charListLt] at h ⊢
      rcases Nat.lt_trichotomy x.toNat y.toNat with hlt | heq | hgt
      · rw [if_neg (Nat.lt_asymm hlt), if_neg (Ne.symm (Nat.ne_of_lt hlt))]
      · rw [if_neg (by omega : ¬ x.toNat < y.toNat), if_pos heq] at h
        rw [if_neg (by omega : ¬ y.toNat < x.toNat), if_pos heq.symm]
        exact ih h
      · rw [if_neg (by omega : ¬ x.toNat < y.toNat),
          if_neg (by omega : ¬ x.toNat = y.toNat)] at h
        exact Bool.noConfusion h

theorem titleLt_asymm {a b : String} (h : titleLt a b = true) : titleLt b a = false :=
  charListLt_asymm h

theorem titleLe_of_titleLt {a b : String} (h : titleLt a b = true) : titleLe a b = true := by
  simp [titleLe, charListLt_asymm h]

theorem titleLt_ne {a b : String} (h : titleLt a b = true) : a ≠ b := by
  intro hab
  rw [hab] at h
  simp [titleLt, charListLt_irrefl] at h

/- ------------------------------------------------------------------ -/
/- Helper lemmas about the execution loop                              -/
/- ------------------------------------------------------------------ -/

/-- Running `next` up over migrations that all succeed appends one history row
and one trace event per migration, in list order. -/
theorem next_up_ok (ms : List Migration) (migs : List Migration) (h s : List String)
    (tr : List (String × Direction)) (hok : ∀ m ∈ ms, m.up = none) :
    next Direction.up (ms.map some) ⟨migs, h, s, tr⟩ =
      (⟨migs, h, s ++ ms.map (fun m => m.title),
        tr ++ ms.map (fun m => (m.title, Direction.up))⟩, none) := by
  induction ms generalizing s tr with
  | nil => simp [next]
  | cons m rest ih =>
    have hm : m.up = none := hok m (by simp)
    simp only [List.map_cons, next, action, hm, save]
    rw [ih _ _ (fun x hx => hok x (by simp [hx]))]
    simp

/-- Running `next` up over a list whose prefix succeeds and whose next
migration fails stops at the failure: only the prefix is saved, the failing
migration is traced but not saved, and the error is surfaced. -/
theorem next_up_fail (pre : List Migration) (m : Migration) (post : List Migration)
    (migs : List Migration) (h s : List String) (tr : List (String × Direction)) (e : String)
    (hpre : ∀ x ∈ pre, x.up = none) (hm : m.up = some e) :
    next Direction.up ((pre ++ m :: post).map some) ⟨migs, h, s, tr⟩ =
      (⟨migs, h, s ++ pre.map (fun x => x.title),
        tr ++ pre.map (fun x => (x.title, Direction.up)) ++ [(m.title, Direction.up)]⟩, some e) := by
  induction pre generalizing s tr with
  | nil => simp [next, action, hm]
  | cons x rest ih =>
    have hx : x.up = none := hpre x (by simp)
    have hsplit : ((x :: rest) ++ m :: post).map some
        = some x :: ((rest ++ m :: post).map some) := rfl
    rw [hsplit]
    simp only [next, action, hx, save]
    rw [ih _ _ (fun y hy => hpre y (by simp [hy]))]
    simp

/-- Sequential row removal, as performed by the down loop. -/
def removeMany (s : List String) (ts : List String) : List String :=
  ts.foldl (fun acc t => acc.filter (fun x => !(x == t))) s

/-- Running `next` down over migrations that all succeed removes one history
row and emits one trace event per migration, in list order. -/
theorem next_down_ok (ms : List Migration) (migs : List Migration) (h s : List String)
    (tr : List (String × Direction)) (hok : ∀ m ∈ ms, m.down = none) :
    next Direction.down (ms.map some) ⟨migs, h, s, tr⟩ =
      (⟨migs, h, removeMany s (ms.map (fun m => m.title)),
        tr ++ ms.map (fun m => (m.title, Direction.down))⟩, none) := by
  induction ms generalizing s tr with
  | nil => simp [next, removeMany]
  | cons m rest ih =>
    have hm : m.down = none := hok m (by simp)
    simp only [List.map_cons, next, action, hm, removeEntry]
    rw [ih _ _ (fun x hx => hok x (by simp [hx]))]
    simp [removeMany]

/-- Running `next` down over a list whose prefix succeeds and whose next
migration fails stops at the failure: only the prefix rows are removed. -/
theorem next_down_fail (pre : List Migration) (m : Migration) (post : List Migration)
    (migs : List Migration) (h s : List String) (tr : List (String × Direction)) (e : String)
    (hpre : ∀ x ∈ pre, x.down = none) (hm : m.down = some e) :
    next Direction.down ((pre ++ m :: post).map some) ⟨migs, h, s, tr⟩ =
      (⟨migs, h, removeMany s (pre.map (fun x => x.title)),
        tr ++ pre.map (fun x => (x.title, Direction.down)) ++ [(m.title, Direction.down)]⟩,
        some e) := by
  induction pre generalizing s tr with
  | nil => simp [next, action, hm, removeMany]
  | cons x rest ih =>
    have hx : x.down = none := hpre x (by simp)
    have hsplit : ((x :: rest) ++ m :: post).map some
        = some x :: ((rest ++ m :: post).map some) := rfl
    rw [hsplit]
    simp only [next, action, hx, removeEntry]
    rw [ih _ _ (fun y hy => hpre y (by simp [hy]))]
    simp [removeMany]

/-- With an empty history snapshot every registry migration is pending. -/
theorem pendingOf_empty_history (migs : List Migration) (s : List String)
    (tr : List (String × Direction)) :
    pendingOf ⟨migs, [], s, tr⟩ = migs := by
  simp [pendingOf, truthyFind, List.find?]

/-- Shared computation: an up run with no target from an empty history and
empty table applies every registry migration (all assumed to succeed) in
registry order. -/
theorem runUp_empty_eq (migs : List Migration) (hok : ∀ m ∈ migs, m.up = none) :
    runUp ⟨migs, [], [], []⟩ none =
      (⟨migs, [], migs.map (fun m => m.title),
        migs.map (fun m => (m.title, Direction.up))⟩, none) := by
  show _migrate ⟨migs, [], [], []⟩ Direction.up none = _
  rw [_migrate]
  rw [pendingOf_empty_history]
  simpa using next_up_ok migs migs [] [] [] hok

/- ------------------------------------------------------------------ -/
/- Claim C1                                                            -/
/- ------------------------------------------------------------------ -/

/-- Claim C1: for a registry whose titles are pairwise distinct and ascending
(lexicographic) and an empty history snapshot, running up with no target (all
up actions succeeding) invokes each up action exactly once, in ascending title
order, and afterwards the MIGRATIONS table holds exactly the registry titles. -/
theorem up_none_from_empty (migs : List Migration)
    (hsorted : List.Pairwise (fun a b => titleLt a b = true) (migs.map (fun m => m.title)))
    (hok : ∀ m ∈ migs, m.up = none) :
    runUp ⟨migs, [], [], []⟩ none =
      (⟨migs, [], migs.map (fun m => m.title),
        migs.map (fun m => (m.title, Direction.up))⟩, none)
    ∧ List.Pairwise (fun a b => titleLt a b = true)
        ((runUp ⟨migs, [], [], []⟩ none).1.trace.map Prod.fst) := by
  have hsel := runUp_empty_eq migs hok
  refine ⟨hsel, ?_⟩
  rw [hsel]
  simpa [List.pairwise_map] using (List.pairwise_map.mp hsorted)

/-- Witness for C1 at a concrete two-migration registry. -/
theorem up_none_from_empty_witness :
    runUp ⟨[{ title := "1000-a", up := none, down := none },
            { title := "2000-b", up := none, down := none }], [], [], []⟩ none =
      (⟨[{ title := "1000-a", up := none, down := none },
         { title := "2000-b", up := none, down := none }], [],
        ["1000-a", "2000-b"],
        [("1000-a", Direction.up), ("2000-b", Direction.up)]⟩, none) :=
  ((up_none_from_empty
    [{ title := "1000-a", up := none, down := none },
     { title := "2000-b", up := none, down := none }]
    (by decide) (by decide)).1).trans (by decide)

/- ------------------------------------------------------------------ -/
/- Helper lemmas about history lookups                                 -/
/- ------------------------------------------------------------------ -/

/-- Array.prototype.find with an equality predicate returns the sought value
whenever it is present. -/
theorem find_beq_of_mem {l : List String} {t : String} (hmem : t ∈ l) :
    l.find? (fun x => x == t) = some t := by
  induction l with
  | nil => cases hmem
  | cons a as ih =>
    by_cases ha : a = t
    · subst ha
      rw [List.find?_cons_of_pos _ (by simp)]
    · rw [List.find?_cons_of_neg _ (by simp [ha])]
      refine ih ?_
      rcases List.mem_cons.mp hmem with h1 | h2
      · exact absurd h1.symm ha
      · exact h2

/-- A nonempty title present in the history snapshot is found truthily. -/
theorem truthyFind_of_mem {l : List String} {t : String} (hmem : t ∈ l) (hne : t ≠ "") :
    truthyFind (l.find? (fun x => x == t)) = true := by
  rw [find_beq_of_mem hmem]
  simp [truthyFind, hne]

/- ------------------------------------------------------------------ -/
/- Claim C2                                                            -/
/- ------------------------------------------------------------------ -/

/-- Claim C2: running up with a target title that occurs in the pending
sequence at index i executes exactly the first i + 1 pending migrations in
ascending order (all of them succeeding here), appending one history row per
success, and does not touch the migrations after the target. -/
theorem up_target_truncates (st : SetState) (name : String) (i : Nat)
    (hsorted : List.Pairwise (fun a b => titleLt a b = true)
      (st.migrations.map (fun m => m.title)))
    (hidx : (pendingOf st).findIdx? (fun e => e.title == name) = some i)
    (hok : ∀ m ∈ (pendingOf st).take (i + 1), m.up = none) :
    runUp st (some name) =
      (⟨st.migrations, st.history,
        st.store ++ ((pendingOf st).take (i + 1)).map (fun m => m.title),
        st.trace ++ ((pendingOf st).take (i + 1)).map (fun m => (m.title, Direction.up))⟩, none)
    ∧ List.Pairwise (fun a b => titleLt a b = true)
        (((pendingOf st).take (i + 1)).map (fun m => m.title)) := by
  constructor
  · obtain ⟨migs, h, s, tr⟩ := st
    show _migrate _ Direction.up (some name) = _
    rw [_migrate]
    simp only [hidx]
    exact next_up_ok _ migs h s tr hok
  · refine List.Pairwise.sublist (List.Sublist.map _ ?_) (List.pairwise_map.mp hsorted |> List.pairwise_map.mpr)
    calc ((pendingOf st).take (i + 1)).Sublist (pendingOf st) := List.take_sublist _ _
      _ = st.migrations.filter _ := rfl
      _ |>.Sublist st.migrations := List.filter_sublist _

/-- Witness for C2: the concrete scenario of the spec, registry
[1000-a, 2000-b, 3000-c] with empty history; up with target 2000-b applies
1000-a then 2000-b and records exactly those two titles. -/
theorem up_target_truncates_witness :
    runUp ⟨[{ title := "1000-a", up := none, down := none },
            { title := "2000-b", up := none, down := none },
            { title := "3000-c", up := none, down := none }], [], [], []⟩ (some "2000-b") =
      (⟨[{ title := "1000-a", up := none, down := none },
         { title := "2000-b", up := none, down := none },
         { title := "3000-c", up := none, down := none }], [],
        ["1000-a", "2000-b"],
        [("1000-a", Direction.up), ("2000-b", Direction.up)]⟩, none) :=
  ((up_target_truncates
    ⟨[{ title := "1000-a", up := none, down := none },
      { title := "2000-b", up := none, down := none },
      { title := "3000-c", up := none, down := none }], [], [], []⟩ "2000-b" 1
    (by decide) (by decide) (by decide)).1).trans (by decide)

/- ------------------------------------------------------------------ -/
/- Claim C3                                                            -/
/- ------------------------------------------------------------------ -/

/-- Claim C3: running up with a target title already recorded in the history
fails with the already-executed error, invokes no migration action and leaves
the whole state (history snapshot, MIGRATIONS table, trace) unchanged.  The
target is a title, hence a nonempty string of the form timestamp-slug. -/
theorem up_target_already_applied (st : SetState) (name : String)
    (hmem : name ∈ st.history) (hne : name ≠ "") :
    runUp st (some name) =
      (st, some ("File \x27" ++ name ++ "\x27 has been executed before")) := by
  obtain ⟨migs, h, s, tr⟩ := st
  have hmem' : name ∈ h := hmem
  have hpend : (pendingOf ⟨migs, h, s, tr⟩).findIdx? (fun e => e.title == name) = none := by
    rw [List.findIdx?_eq_none_iff]
    intro e he
    rcases List.mem_filter.mp he with ⟨_, hcond⟩
    by_contra habs
    have htitle : e.title = name := by
      cases hbeq : (e.title == name) with
      | false => exact absurd hbeq habs
      | true => exact eq_of_beq hbeq
    rw [htitle] at hcond
    rw [truthyFind_of_mem hmem' hne] at hcond
    exact Bool.noConfusion hcond
  show _migrate _ Direction.up (some name) = _
  rw [_migrate]
  simp only [hpend]
  rw [if_pos (truthyFind_of_mem hmem' hne)]

/-- Witness for C3 at a concrete state where the target is already applied. -/
theorem up_target_already_applied_witness :
    runUp ⟨[{ title := "1000-a", up := none, down := none }],
      ["1000-a"], ["1000-a"], []⟩ (some "1000-a") =
      (⟨[{ title := "1000-a", up := none, down := none }],
        ["1000-a"], ["1000-a"], []⟩,
        some ("File \x271000-a\x27 has been executed before")) :=
  (up_target_already_applied
    ⟨[{ title := "1000-a", up := none, down := none }], ["1000-a"], ["1000-a"], []⟩
    "1000-a" (by decide) (by decide)).trans (by decide)

/- ------------------------------------------------------------------ -/
/- Helper lemmas: contains, truthiness, removal, sorting               -/
/- ------------------------------------------------------------------ -/

theorem contains_iff_mem {l : List String} {a : String} : l.contains a = true ↔ a ∈ l :=
  List.elem_iff

theorem contains_eq_false_iff {l : List String} {a : String} :
    l.contains a = false ↔ ¬ a ∈ l := by
  rw [← contains_iff_mem]
  cases l.contains a <;> simp

/-- When the history snapshot holds no empty title, the truthy find over it is
plain membership. -/
theorem truthyFind_eq_contains (l : List String) (t : String) (hempty : ¬ "" ∈ l) :
    truthyFind (l.find? (fun x => x == t)) = l.contains t := by
  by_cases ht : t = ""
  · subst ht
    have hfind : l.find? (fun x => x == "") = none := by
      rw [List.find?_eq_none]
      intro x hx
      simp only [beq_iff_eq]
      intro hxe
      exact hempty (hxe ▸ hx)
    rw [hfind]
    have hc : l.contains "" = false := contains_eq_false_iff.mpr hempty
    rw [hc]
    rfl
  · cases hfind : l.find? (fun x => x == t) with
    | some v =>
      have hp := List.find?_some hfind
      have hv : v = t := eq_of_beq hp
      have hmem : t ∈ l := hv ▸ List.mem_of_find?_eq_some hfind
      rw [contains_iff_mem.mpr hmem]
      simp [truthyFind, hv, ht]
    | none =>
      have hnmem : ¬ t ∈ l := by
        intro hmem
        have := List.find?_eq_none.mp hfind t hmem
        simp at this
      rw [contains_eq_false_iff.mpr hnmem]
      simp [truthyFind]

/-- Filtering migrations by a condition on their title commutes with taking
titles. -/
theorem map_title_filter (q : String → Bool) (migs : List Migration) :
    (migs.filter (fun e => q e.title)).map (fun m => m.title)
      = (migs.map (fun m => m.title)).filter q := by
  induction migs with
  | nil => rfl
  | cons m rest ih =>
    by_cases hq : q m.title = true
    · simp [hq, ih]
    · simp [List.filter_cons, hq, ih]

theorem removeMany_eq_filter (s ts : List String) :
    removeMany s ts = s.filter (fun x => !(ts.contains x)) := by
  induction ts generalizing s with
  | nil => simp [removeMany]
  | cons t ts ih =>
    show removeMany (s.filter (fun x => !(x == t))) ts = _
    rw [ih]
    rw [List.filter_filter]
    refine List.filter_congr ?_
    intro a _
    rw [List.contains_cons, Bool.not_or, Bool.and_comm]

theorem contains_jsSort (l : List String) (t : String) :
    (jsSort l).contains t = l.contains t := by
  have hperm : (jsSort l).Perm l := List.perm_insertionSort (fun a b => titleLe a b = true) l
  by_cases hm : t ∈ l
  · rw [contains_iff_mem.mpr hm, contains_iff_mem.mpr (hperm.mem_iff.mpr hm)]
  · rw [contains_eq_false_iff.mpr hm,
      contains_eq_false_iff.mpr (fun hx => hm (hperm.mem_iff.mp hx))]

theorem contains_reverse (l : List String) (t : String) :
    l.reverse.contains t = l.contains t := by
  by_cases hm : t ∈ l
  · rw [contains_iff_mem.mpr hm, contains_iff_mem.mpr (List.mem_reverse.mpr hm)]
  · rw [contains_eq_false_iff.mpr hm,
      contains_eq_false_iff.mpr (fun hx => hm (List.mem_reverse.mp hx))]

theorem contains_append (l₁ l₂ : List String) (t : String) :
    (l₁ ++ l₂).contains t = (l₁.contains t || l₂.contains t) := by
  by_cases h1 : t ∈ l₁
  · rw [contains_iff_mem.mpr (List.mem_append.mpr (Or.inl h1)), contains_iff_mem.mpr h1]
    simp
  · by_cases h2 : t ∈ l₂
    · rw [contains_iff_mem.mpr (List.mem_append.mpr (Or.inr h2)), contains_iff_mem.mpr h2]
      simp
    · rw [contains_eq_false_iff.mpr h1, contains_eq_false_iff.mpr h2,
        contains_eq_false_iff.mpr (fun hx => (List.mem_append.mp hx).elim h1 h2)]
      rfl

/-- A strictly ascending title list is fixed by the JavaScript sort. -/
theorem jsSort_of_sorted {l : List String}
    (hs : List.Pairwise (fun a b => titleLt a b = true) l) : jsSort l = l :=
  List.Sorted.insertionSort_eq (List.Pairwise.imp (fun h => titleLe_of_titleLt h) hs)

/- ------------------------------------------------------------------ -/
/- Helper lemmas about collectFromHistory                              -/
/- ------------------------------------------------------------------ -/

/-- A migration whose title matches no history entry does not change the
collection. -/
theorem collect_skip_head (hist : List String) (m : Migration) (rest : List Migration)
    (hne : ∀ t ∈ hist, m.title ≠ t) :
    collectFromHistory hist (m :: rest) = collectFromHistory hist rest := by
  induction hist with
  | nil => rfl
  | cons h hs ih =>
    rw [collectFromHistory, collectFromHistory]
    have hmf : (m.title == h) = false := by
      simp only [beq_eq_false_iff_ne]
      exact hne h (by simp)
    have hfind : List.find? (fun e => e.title == h) (m :: rest)
        = List.find? (fun e => e.title == h) rest := by
      simp [List.find?, hmf]
    rw [hfind, ih (fun t ht => hne t (by simp [ht]))]

/-- Collecting a registry whose titles are exactly the history (distinct)
yields the registry itself. -/
theorem collect_map_self (migs : List Migration)
    (hnodup : (migs.map (fun m => m.title)).Nodup) :
    collectFromHistory (migs.map (fun m => m.title)) migs = Except.ok migs := by
  induction migs with
  | nil => rfl
  | cons m rest ih =>
    rw [List.map_cons, collectFromHistory]
    rw [List.find?_cons_of_pos _ (by simp)]
    have hne : ∀ t ∈ rest.map (fun m => m.title), m.title ≠ t := by
      intro t ht he
      apply (List.nodup_cons.mp hnodup).1
      show m.title ∈ List.map (fun m => m.title) rest
      rw [he]
      exact ht
    rw [collect_skip_head _ _ _ hne]
    rw [ih (List.nodup_cons.mp hnodup).2]

/- ------------------------------------------------------------------ -/
/- Claim C4                                                            -/
/- ------------------------------------------------------------------ -/

/-- Claim C4: for a registry with distinct ascending titles and empty history,
an up run with no target followed (in a fresh CLI invocation, which reloads
history from the MIGRATIONS table) by a down run with target `all` empties the
MIGRATIONS table again, and the down actions run in exactly the reverse of the
up order, i.e. strictly descending title order. -/
theorem up_then_down_all_roundtrip (migs : List Migration)
    (hsorted : List.Pairwise (fun a b => titleLt a b = true) (migs.map (fun m => m.title)))
    (hup : ∀ m ∈ migs, m.up = none) (hdown : ∀ m ∈ migs, m.down = none) :
    (runUp ⟨migs, [], [], []⟩ none).2 = none
    ∧ runDown (reinit migs (runUp ⟨migs, [], [], []⟩ none).1.store) (some "all") =
        (⟨migs, migs.map (fun m => m.title), [],
          migs.reverse.map (fun m => (m.title, Direction.down))⟩, none)
    ∧ ((runDown (reinit migs (runUp ⟨migs, [], [], []⟩ none).1.store) (some "all")).1.trace.map
          Prod.fst)
        = ((runUp ⟨migs, [], [], []⟩ none).1.trace.map Prod.fst).reverse
    ∧ List.Pairwise (fun a b => titleLt b a = true)
        ((runDown (reinit migs (runUp ⟨migs, [], [], []⟩ none).1.store) (some "all")).1.trace.map
          Prod.fst) := by
  have hr1 := runUp_empty_eq migs hup
  have htitles : (runUp ⟨migs, [], [], []⟩ none).1.store = migs.map (fun m => m.title) := by
    rw [hr1]
  have hnodup : (migs.map (fun m => m.title)).Nodup :=
    List.Pairwise.imp (fun h => titleLt_ne h) hsorted
  have hsortEq : jsSort (migs.map (fun m => m.title)) = migs.map (fun m => m.title) :=
    jsSort_of_sorted hsorted
  have hrm : removeMany (migs.map (fun m => m.title)) ((migs.map (fun m => m.title)).reverse)
      = [] := by
    rw [removeMany_eq_filter, List.filter_eq_nil_iff]
    intro a ha
    have hmem : a ∈ (migs.map (fun m => m.title)).reverse := List.mem_reverse.mpr ha
    rw [contains_iff_mem.mpr hmem]
    simp
  have hr2 : runDown (reinit migs (migs.map (fun m => m.title))) (some "all") =
      (⟨migs, migs.map (fun m => m.title), [],
        migs.reverse.map (fun m => (m.title, Direction.down))⟩, none) := by
    show _migrate _ Direction.down (some "all") = _
    simp only [reinit, hsortEq]
    rw [_migrate]
    rw [if_pos rfl]
    rw [collect_map_self migs hnodup]
    have hdr : ∀ m ∈ migs.reverse, m.down = none := fun m hm => hdown m (List.mem_reverse.mp hm)
    show next Direction.down (migs.reverse.map some)
        ⟨migs, migs.map (fun m => m.title), migs.map (fun m => m.title), []⟩ = _
    rw [next_down_ok migs.reverse migs (migs.map (fun m => m.title))
      (migs.map (fun m => m.title)) [] hdr]
    simp [hrm]
  refine ⟨by rw [hr1], ?_, ?_, ?_⟩
  · rw [htitles, hr2]
  · rw [htitles, hr2, hr1]
    simp [List.map_reverse]
  · rw [htitles, hr2]
    have htr : ((migs.reverse.map (fun m => (m.title, Direction.down))).map Prod.fst)
        = (migs.map (fun m => m.title)).reverse := by
      simp [List.map_reverse]
    show List.Pairwise _ (((⟨migs, migs.map (fun m => m.title), [],
      migs.reverse.map (fun m => (m.title, Direction.down))⟩ : SetState), (none : Option String)).1.trace.map Prod.fst)
    rw [show ((⟨migs, migs.map (fun m => m.title), [],
      migs.reverse.map (fun m => (m.title, Direction.down))⟩ : SetState), (none : Option String)).1.trace
      = migs.reverse.map (fun m => (m.title, Direction.down)) from rfl]
    rw [htr]
    exact List.pairwise_reverse.mpr hsorted

/-- Witness for C4 at a concrete two-migration registry: the down-all run after
the up run empties the table and reverts in descending order. -/
theorem up_then_down_all_roundtrip_witness :
    runDown (reinit [{ title := "1000-a", up := none, down := none },
                     { title := "2000-b", up := none, down := none }]
      (runUp ⟨[{ title := "1000-a", up := none, down := none },
               { title := "2000-b", up := none, down := none }], [], [], []⟩ none).1.store)
      (some "all") =
      (⟨[{ title := "1000-a", up := none, down := none },
         { title := "2000-b", up := none, down := none }],
        ["1000-a", "2000-b"], [],
        [("2000-b", Direction.down), ("1000-a", Direction.down)]⟩, none) :=
  ((up_then_down_all_roundtrip
    [{ title := "1000-a", up := none, down := none },
     { title := "2000-b", up := none, down := none }]
    (by decide) (by decide) (by decide)).2.1).trans (by decide)

/- ------------------------------------------------------------------ -/
/- pendingOf and historyListOf as plain membership filters             -/
/- ------------------------------------------------------------------ -/

/-- When the history snapshot holds no empty title, the pending sequence is the
registry filtered by non-membership of the title in the history. -/
theorem pendingOf_eq (migs : List Migration) (h s : List String)
    (tr : List (String × Direction)) (hempty : ¬ "" ∈ h) :
    pendingOf ⟨migs, h, s, tr⟩ = migs.filter (fun e => !(h.contains e.title)) := by
  show migs.filter _ = _
  refine List.filter_congr ?_
  intro e _
  rw [truthyFind_eq_contains h e.title hempty]

/-- When the history snapshot holds no empty title, the history list is the
registry filtered by membership of the title in the history. -/
theorem historyListOf_eq (migs : List Migration) (h s : List String)
    (tr : List (String × Direction)) (hempty : ¬ "" ∈ h) :
    historyListOf ⟨migs, h, s, tr⟩ = migs.filter (fun e => h.contains e.title) := by
  show migs.filter _ = _
  refine List.filter_congr ?_
  intro e _
  rw [truthyFind_eq_contains h e.title hempty]

/- ------------------------------------------------------------------ -/
/- Claim C7                                                            -/
/- ------------------------------------------------------------------ -/

/-- Claim C7: when the pending sequence decomposes as pre ++ m :: post, the
migrations of pre succeed and the up action of m fails with e, then the up run
surfaces e without attempting anything after m, the MIGRATIONS table records
exactly the migrations completed before the failure, and a subsequent up run
with no target (fresh CLI invocation, history reloaded from the table)
recomputes the pending sequence as m :: post and so retries only the
migrations not yet applied, starting with m (which fails again with e). -/
theorem up_mid_failure_then_retry (migs : List Migration) (hist store : List String)
    (pre : List Migration) (m : Migration) (post : List Migration) (e : String)
    (hsorted : List.Pairwise (fun a b => titleLt a b = true) (migs.map (fun x => x.title)))
    (hne : ∀ x ∈ migs, x.title ≠ "")
    (hhe : ¬ "" ∈ hist)
    (hmm : ∀ t, t ∈ hist ↔ t ∈ store)
    (hsplit : pendingOf ⟨migs, hist, store, []⟩ = pre ++ m :: post)
    (hpre : ∀ x ∈ pre, x.up = none)
    (hfail : m.up = some e) :
    runUp ⟨migs, hist, store, []⟩ none =
      (⟨migs, hist, store ++ pre.map (fun x => x.title),
        pre.map (fun x => (x.title, Direction.up)) ++ [(m.title, Direction.up)]⟩, some e)
    ∧ pendingOf (reinit migs (store ++ pre.map (fun x => x.title))) = m :: post
    ∧ runUp (reinit migs (store ++ pre.map (fun x => x.title))) none =
        (⟨migs, jsSort (store ++ pre.map (fun x => x.title)),
          store ++ pre.map (fun x => x.title), [(m.title, Direction.up)]⟩, some e) := by
  have hpreMigs : ∀ x ∈ pre ++ m :: post, x ∈ migs := by
    intro x hx
    rw [← hsplit] at hx
    exact (List.mem_filter.mp hx).1
  have hcsh : ∀ t, store.contains t = hist.contains t := by
    intro t
    by_cases hm2 : t ∈ hist
    · rw [contains_iff_mem.mpr hm2, contains_iff_mem.mpr ((hmm t).mp hm2)]
    · rw [contains_eq_false_iff.mpr hm2,
        contains_eq_false_iff.mpr (fun hx => hm2 ((hmm t).mpr hx))]
  have hpend1 : migs.filter (fun x => !(hist.contains x.title)) = pre ++ m :: post := by
    rw [← pendingOf_eq migs hist store [] hhe]
    exact hsplit
  have hempty2 : ¬ "" ∈ jsSort (store ++ pre.map (fun x => x.title)) := by
    intro habs
    have hperm : (jsSort (store ++ pre.map (fun x => x.title))).Perm
        (store ++ pre.map (fun x => x.title)) := List.perm_insertionSort _ _
    rcases List.mem_append.mp (hperm.mem_iff.mp habs) with hs | hp
    · exact hhe ((hmm "").mpr hs)
    · rcases List.mem_map.mp hp with ⟨x, hx, hxt⟩
      exact hne x (hpreMigs x (List.mem_append.mpr (Or.inl hx))) hxt
  have hnodupMigs : (migs.map (fun x => x.title)).Nodup :=
    List.Pairwise.imp (fun hh => titleLt_ne hh) hsorted
  have hsubl : ((pre ++ m :: post).map (fun x => x.title)).Sublist
      (migs.map (fun x => x.title)) := by
    rw [← hsplit]
    exact List.Sublist.map _ (List.filter_sublist migs)
  have hnodupP : ((pre ++ m :: post).map (fun x => x.title)).Nodup :=
    List.Nodup.sublist hsubl hnodupMigs
  rw [List.map_append] at hnodupP
  have hdisj := (List.nodup_append.mp hnodupP).2.2
  have hnotpre : ∀ x ∈ m :: post, ¬ x.title ∈ pre.map (fun y => y.title) := by
    intro x hx hcontra
    exact List.disjoint_left.mp hdisj hcontra (List.mem_map.mpr ⟨x, hx, rfl⟩)
  have hpend2 : pendingOf (reinit migs (store ++ pre.map (fun x => x.title))) = m :: post := by
    show pendingOf ⟨migs, jsSort (store ++ pre.map (fun x => x.title)),
      store ++ pre.map (fun x => x.title), []⟩ = m :: post
    rw [pendingOf_eq _ _ _ _ hempty2]
    have hptw : ∀ x ∈ migs,
        (!( (jsSort (store ++ pre.map (fun y => y.title))).contains x.title))
        = (!((pre.map (fun y => y.title)).contains x.title) && !(hist.contains x.title)) := by
      intro x _
      rw [contains_jsSort, contains_append, hcsh x.title, Bool.not_or, Bool.and_comm]
    rw [List.filter_congr hptw]
    rw [← List.filter_filter]
    rw [hpend1]
    rw [List.filter_append]
    have hprefilter : pre.filter (fun x => !((pre.map (fun y => y.title)).contains x.title))
        = [] := by
      rw [List.filter_eq_nil_iff]
      intro x hx
      have hmem : x.title ∈ pre.map (fun y => y.title) := List.mem_map.mpr ⟨x, hx, rfl⟩
      rw [contains_iff_mem.mpr hmem]
      simp
    rw [hprefilter]
    have hfs : (m :: post).filter
        (fun x => !((pre.map (fun y => y.title)).contains x.title)) = m :: post := by
      rw [List.filter_eq_self]
      intro x hx
      rw [contains_eq_false_iff.mpr (hnotpre x hx)]
      rfl
    rw [hfs]
    rfl
  refine ⟨?_, hpend2, ?_⟩
  · show _migrate ⟨migs, hist, store, []⟩ Direction.up none = _
    rw [_migrate]
    rw [hsplit]
    rw [next_up_fail pre m post migs hist store [] e hpre hfail]
    simp
  · show _migrate _ Direction.up none = _
    rw [_migrate]
    rw [hpend2]
    have h1 := next_up_fail [] m post migs (jsSort (store ++ pre.map (fun x => x.title)))
      (store ++ pre.map (fun x => x.title)) [] e
      (fun x hx => absurd hx (List.not_mem_nil x)) hfail
    simp only [List.nil_append, List.map_nil, List.append_nil] at h1
    exact h1

/-- Witness for C7: the concrete scenario of the spec, registry
[1000-a, 2000-b] both pending, the up action of 2000-b failing: the first run
records only 1000-a and the retry attempts only 2000-b. -/
theorem up_mid_failure_then_retry_witness :
    runUp (reinit [{ title := "1000-a", up := none, down := none },
                   { title := "2000-b", up := some "boom", down := none }]
        (["1000-a"])) none =
      (⟨[{ title := "1000-a", up := none, down := none },
         { title := "2000-b", up := some "boom", down := none }],
        ["1000-a"], ["1000-a"], [("2000-b", Direction.up)]⟩, some "boom") :=
  ((up_mid_failure_then_retry
    [{ title := "1000-a", up := none, down := none },
     { title := "2000-b", up := some "boom", down := none }]
    [] [] [{ title := "1000-a", up := none, down := none }]
    { title := "2000-b", up := some "boom", down := none } [] "boom"
    (by decide) (by decide) (by decide) (fun t => Iff.rfl) (by decide)
    (by decide) (by decide)).2.2).trans (by decide)

/- ------------------------------------------------------------------ -/
/- The history list carries exactly the history titles                 -/
/- ------------------------------------------------------------------ -/

/-- Under the data-model invariants (registry strictly ascending, history
snapshot strictly ascending, every history title backed by a registry
migration), filtering the registry to history membership yields a migration
list whose titles are exactly the history, in the same order. -/
theorem filter_contains_titles (migs : List Migration) (hist : List String)
    (hrsorted : List.Pairwise (fun a b => titleLt a b = true) (migs.map (fun m => m.title)))
    (hhsorted : List.Pairwise (fun a b => titleLt a b = true) hist)
    (hsub : ∀ t ∈ hist, ∃ mm ∈ migs, mm.title = t) :
    (migs.filter (fun e => hist.contains e.title)).map (fun m => m.title) = hist := by
  rw [map_title_filter (hist.contains) migs]
  have hsorted2 : List.Pairwise (fun a b => titleLt a b = true)
      ((migs.map (fun m => m.title)).filter (hist.contains)) :=
    List.Pairwise.sublist (List.filter_sublist _) hrsorted
  have hnodupF : ((migs.map (fun m => m.title)).filter (hist.contains)).Nodup :=
    hsorted2.imp (fun hh => titleLt_ne hh)
  have hnodupH : hist.Nodup := hhsorted.imp (fun hh => titleLt_ne hh)
  have hmemiff : ∀ a, a ∈ (migs.map (fun m => m.title)).filter (hist.contains) ↔ a ∈ hist := by
    intro a
    constructor
    · intro ha
      exact contains_iff_mem.mp (List.mem_filter.mp ha).2
    · intro ha
      rcases hsub a ha with ⟨mm, hmmem, hmt⟩
      exact List.mem_filter.mpr
        ⟨List.mem_map.mpr ⟨mm, hmmem, hmt⟩, contains_iff_mem.mpr ha⟩
  have hperm : ((migs.map (fun m => m.title)).filter (hist.contains)).Perm hist :=
    (List.perm_ext_iff_of_nodup hnodupF hnodupH).mpr hmemiff
  haveI : IsAntisymm String (fun a b => titleLt a b = true) :=
    ⟨fun a b h1 h2 => by rw [titleLt_asymm h1] at h2; exact Bool.noConfusion h2⟩
  exact List.eq_of_perm_of_sorted hperm hsorted2 hhsorted

/- ------------------------------------------------------------------ -/
/- Claim C5                                                            -/
/- ------------------------------------------------------------------ -/

/-- Claim C5: running down with a specific target title (not the keyword all):
if the target is absent from the history snapshot the run fails with the
not-found error and changes nothing; if the target sits at position i of the
history, the run executes the down actions of exactly the history titles from
the target through the greatest (the suffix), in descending title order,
removing each MIGRATIONS row after that migration's individual success, and a
mid-suffix failure stops the run at the failing migration. -/
theorem down_target_semantics (st : SetState) (name : String)
    (hrsorted : List.Pairwise (fun a b => titleLt a b = true)
      (st.migrations.map (fun x => x.title)))
    (hhsorted : List.Pairwise (fun a b => titleLt a b = true) st.history)
    (hsub : ∀ t ∈ st.history, ∃ mm ∈ st.migrations, mm.title = t)
    (hempty : ¬ "" ∈ st.history)
    (hall : ¬ name = "all") :
    (st.history.findIdx? (fun x => x == name) = none →
      runDown st (some name) = (st, some ("File \x27" ++ name ++ "\x27 not found")))
    ∧ (∀ i, st.history.findIdx? (fun x => x == name) = some i →
        ((∀ mm ∈ historyListOf st, mm.down = none) →
          runDown st (some name) =
            (⟨st.migrations, st.history,
              st.store.filter (fun t => !((st.history.drop i).contains t)),
              st.trace ++ (st.history.drop i).reverse.map (fun t => (t, Direction.down))⟩,
              none))
        ∧ (∀ preM mx postM e₀, ((historyListOf st).drop i).reverse = preM ++ mx :: postM →
            (∀ x ∈ preM, x.down = none) → mx.down = some e₀ →
            runDown st (some name) =
              (⟨st.migrations, st.history,
                st.store.filter (fun t => !((preM.map (fun x => x.title)).contains t)),
                st.trace ++ preM.map (fun x => (x.title, Direction.down))
                  ++ [(mx.title, Direction.down)]⟩, some e₀))) := by
  obtain ⟨migs, h, s, tr⟩ := st
  constructor
  · intro hfound
    show _migrate _ Direction.down (some name) = _
    rw [_migrate, if_neg hall]
    simp only [hfound]
  · intro i hidx
    have hsel : runDown ⟨migs, h, s, tr⟩ (some name)
        = next Direction.down (((historyListOf ⟨migs, h, s, tr⟩).drop i).reverse.map some)
          ⟨migs, h, s, tr⟩ := by
      show _migrate _ Direction.down (some name) = _
      rw [_migrate, if_neg hall]
      simp only [hidx]
    have hmapT : (historyListOf ⟨migs, h, s, tr⟩).map (fun mm => mm.title) = h := by
      rw [historyListOf_eq migs h s tr hempty]
      exact filter_contains_titles migs h hrsorted hhsorted hsub
    have hmsT : ((historyListOf ⟨migs, h, s, tr⟩).drop i).map (fun mm => mm.title)
        = h.drop i := by
      rw [List.map_drop, hmapT]
    constructor
    · intro hdownall
      have hdowns : ∀ mm ∈ ((historyListOf ⟨migs, h, s, tr⟩).drop i).reverse,
          mm.down = none := by
        intro mm hmmr
        exact hdownall mm (List.mem_of_mem_drop (List.mem_reverse.mp hmmr))
      have hmsrevT : (((historyListOf ⟨migs, h, s, tr⟩).drop i).reverse).map
          (fun mm => mm.title) = (h.drop i).reverse := by
        rw [List.map_reverse, hmsT]
      have hstore : s.filter (fun t => !(((h.drop i).reverse).contains t))
          = s.filter (fun t => !((h.drop i).contains t)) :=
        List.filter_congr (fun t _ => by rw [contains_reverse])
      have htrace : (((historyListOf ⟨migs, h, s, tr⟩).drop i).reverse).map
          (fun mm => (mm.title, Direction.down))
          = (h.drop i).reverse.map (fun t => (t, Direction.down)) := by
        rw [← hmsrevT, List.map_map]
        rfl
      rw [hsel]
      rw [next_down_ok _ migs h s tr hdowns]
      rw [removeMany_eq_filter, hmsrevT, hstore, htrace]
    · intro preM mx postM e₀ hdec hpreM hmx
      rw [hsel, hdec]
      rw [next_down_fail preM mx postM migs h s tr e₀ hpreM hmx]
      rw [removeMany_eq_filter]

/-- Witness for C5: with history [1000-a, 2000-b] and target 1000-a, the run
reverts 2000-b then 1000-a (the full suffix, descending) and empties the
table. -/
theorem down_target_semantics_witness :
    runDown ⟨[{ title := "1000-a", up := none, down := none },
              { title := "2000-b", up := none, down := none }],
      ["1000-a", "2000-b"], ["1000-a", "2000-b"], []⟩ (some "1000-a") =
      (⟨[{ title := "1000-a", up := none, down := none },
         { title := "2000-b", up := none, down := none }],
        ["1000-a", "2000-b"], [],
        [("2000-b", Direction.down), ("1000-a", Direction.down)]⟩, none) :=
  (((down_target_semantics
    ⟨[{ title := "1000-a", up := none, down := none },
      { title := "2000-b", up := none, down := none }],
      ["1000-a", "2000-b"], ["1000-a", "2000-b"], []⟩ "1000-a"
    (by decide) (by decide) (by decide) (by decide) (by decide)).2
    0 (by decide)).1 (by decide)).trans (by decide)

/- ------------------------------------------------------------------ -/
/- collectFromHistory case analysis                                    -/
/- ------------------------------------------------------------------ -/

/-- A collection error names a history title with no matching registry
migration (the first such title). -/
theorem collect_error_spec (hist : List String) (migs : List Migration) (h : String)
    (hc : collectFromHistory hist migs = Except.error h) :
    h ∈ hist ∧ migs.find? (fun e => e.title == h) = none := by
  induction hist with
  | nil => exact Except.noConfusion hc
  | cons t rest ih =>
    rw [collectFromHistory] at hc
    cases hf : migs.find? (fun e => e.title == t) with
    | none =>
      rw [hf] at hc
      injection hc with h1
      subst h1
      exact ⟨by simp, hf⟩
    | some o =>
      rw [hf] at hc
      cases hrec : collectFromHistory rest migs with
      | error x =>
        rw [hrec] at hc
        injection hc with h1
        subst h1
        rcases ih hrec with ⟨hm, hf2⟩
        exact ⟨by simp [hm], hf2⟩
      | ok tail =>
        rw [hrec] at hc
        exact Except.noConfusion hc

/-- A successful collection maps the history titles, in order, to registry
migrations found by title. -/
theorem collect_ok_spec (hist : List String) (migs : List Migration) (ms : List Migration)
    (hc : collectFromHistory hist migs = Except.ok ms) :
    ms.map (fun m => m.title) = hist
    ∧ ∀ mm ∈ ms, ∃ t ∈ hist, migs.find? (fun e => e.title == t) = some mm := by
  induction hist generalizing ms with
  | nil =>
    injection hc with h1
    subst h1
    exact ⟨rfl, by intro mm hmm; cases hmm⟩
  | cons t rest ih =>
    rw [collectFromHistory] at hc
    cases hf : migs.find? (fun e => e.title == t) with
    | none =>
      rw [hf] at hc
      exact Except.noConfusion hc
    | some o =>
      rw [hf] at hc
      cases hrec : collectFromHistory rest migs with
      | error x =>
        rw [hrec] at hc
        exact Except.noConfusion hc
      | ok tail =>
        rw [hrec] at hc
        injection hc with h1
        subst h1
        rcases ih tail hrec with ⟨hmap, hmem⟩
        constructor
        · rw [List.map_cons, hmap]
          have hp := List.find?_some hf
          have ho : o.title = t := eq_of_beq hp
          rw [ho]
        · intro mm hmm
          rcases List.mem_cons.mp hmm with he | hrest
          · subst he
            exact ⟨t, by simp, hf⟩
          · rcases hmem mm hrest with ⟨t2, ht2, hf2⟩
            exact ⟨t2, by simp [ht2], hf2⟩

/-- A successful collection implies every history title was found. -/
theorem collect_ok_all_found (hist : List String) (migs : List Migration)
    (ms : List Migration) (hc : collectFromHistory hist migs = Except.ok ms) :
    ∀ t ∈ hist, (migs.find? (fun e => e.title == t)).isSome := by
  induction hist generalizing ms with
  | nil => intro t ht; cases ht
  | cons a rest ih =>
    rw [collectFromHistory] at hc
    cases hf : migs.find? (fun e => e.title == a) with
    | none =>
      rw [hf] at hc
      exact Except.noConfusion hc
    | some o =>
      rw [hf] at hc
      cases hrec : collectFromHistory rest migs with
      | error x =>
        rw [hrec] at hc
        exact Except.noConfusion hc
      | ok tail =>
        intro t ht
        rcases List.mem_cons.mp ht with he | hrest
        · subst he
          rw [hf]
          rfl
        · exact ih tail hrec t hrest

/-- Every history title has a matching registry migration exactly when the
collection succeeds. -/
theorem collect_ok_of_found (hist : List String) (migs : List Migration)
    (hfound : ∀ t ∈ hist, (migs.find? (fun e => e.title == t)).isSome) :
    ∃ ms, collectFromHistory hist migs = Except.ok ms := by
  induction hist with
  | nil => exact ⟨[], rfl⟩
  | cons t rest ih =>
    have h1 := hfound t (by simp)
    cases hf : migs.find? (fun e => e.title == t) with
    | none =>
      rw [hf] at h1
      exact absurd h1 (by simp)
    | some o =>
      rcases ih (fun t2 ht2 => hfound t2 (by simp [ht2])) with ⟨ms, hms⟩
      exact ⟨o :: ms, by rw [collectFromHistory, hf, hms]⟩

/- ------------------------------------------------------------------ -/
/- Claim C6                                                            -/
/- ------------------------------------------------------------------ -/

/-- Claim C6: running down with target `all` when some history title has no
matching registry migration fails with the history-mismatch error before any
down action executes, leaving the whole state unchanged; when every history
title has a matching migration (all of whose down actions succeed here), it
reverts every history entry, in descending order, removing every history row
from the MIGRATIONS table. -/
theorem down_all_semantics (st : SetState) :
    ((∃ t ∈ st.history, st.migrations.find? (fun e => e.title == t) = none) →
      ∃ hh ∈ st.history,
        st.migrations.find? (fun e => e.title == hh) = none ∧
        runDown st (some "all") =
          (st, some ("File from history \x27" ++ hh ++ "\x27 can not be found in local files")))
    ∧ ((∀ t ∈ st.history, (st.migrations.find? (fun e => e.title == t)).isSome) →
       (∀ t ∈ st.history, ∀ mm ∈ st.migrations, mm.title = t → mm.down = none) →
        runDown st (some "all") =
          (⟨st.migrations, st.history,
            st.store.filter (fun t => !(st.history.contains t)),
            st.trace ++ st.history.reverse.map (fun t => (t, Direction.down))⟩, none)) := by
  obtain ⟨migs, h, s, tr⟩ := st
  constructor
  · intro hex
    cases hc : collectFromHistory h migs with
    | error hh =>
      rcases collect_error_spec h migs hh hc with ⟨hmem, hfind⟩
      refine ⟨hh, hmem, hfind, ?_⟩
      show _migrate _ Direction.down (some "all") = _
      rw [_migrate, if_pos rfl]
      simp only [hc]
    | ok ms =>
      rcases hex with ⟨t, ht, hnone⟩
      have hsome := collect_ok_all_found h migs ms hc t ht
      rw [hnone] at hsome
      exact absurd hsome (by simp)
  · intro hfound hdowns
    rcases collect_ok_of_found h migs hfound with ⟨ms, hc⟩
    rcases collect_ok_spec h migs ms hc with ⟨hmap, hmem⟩
    have hdok : ∀ mm ∈ ms.reverse, mm.down = none := by
      intro mm hmmr
      rcases hmem mm (List.mem_reverse.mp hmmr) with ⟨t, ht, hf⟩
      have hp := List.find?_some hf
      have hmmmem := List.mem_of_find?_eq_some hf
      exact hdowns t ht mm hmmmem (eq_of_beq hp)
    have hmsrevT : (ms.reverse.map (fun mm => mm.title)) = h.reverse := by
      rw [List.map_reverse, hmap]
    have hstore : s.filter (fun t => !(h.reverse.contains t))
        = s.filter (fun t => !(h.contains t)) :=
      List.filter_congr (fun t _ => by rw [contains_reverse])
    have htrace : ms.reverse.map (fun mm => (mm.title, Direction.down))
        = h.reverse.map (fun t => (t, Direction.down)) := by
      rw [← hmsrevT, List.map_map]
      rfl
    show _migrate _ Direction.down (some "all") = _
    rw [_migrate, if_pos rfl]
    simp only [hc]
    show next Direction.down (ms.reverse.map some) ⟨migs, h, s, tr⟩ = _
    rw [next_down_ok ms.reverse migs h s tr hdok]
    rw [removeMany_eq_filter, hmsrevT, hstore, htrace]

/-- Witness for C6: with a fully matched two-entry history whose down actions
succeed, down all reverts both entries in descending order and empties the
table. -/
theorem down_all_semantics_witness :
    runDown ⟨[{ title := "1000-a", up := none, down := none },
              { title := "2000-b", up := none, down := none }],
      ["1000-a", "2000-b"], ["1000-a", "2000-b"], []⟩ (some "all") =
      (⟨[{ title := "1000-a", up := none, down := none },
         { title := "2000-b", up := none, down := none }],
        ["1000-a", "2000-b"], [],
        [("2000-b", Direction.down), ("1000-a", Direction.down)]⟩, none) :=
  ((down_all_semantics
    ⟨[{ title := "1000-a", up := none, down := none },
      { title := "2000-b", up := none, down := none }],
      ["1000-a", "2000-b"], ["1000-a", "2000-b"], []⟩).2
    (by decide) (by decide)).trans (by decide)

/- ------------------------------------------------------------------ -/
/- Claim C10                                                           -/
/- ------------------------------------------------------------------ -/

theorem optSome_beq (a b : String) : (some a == some b) = (a == b) := rfl

theorem find?_pred_congr {p q : Migration → Bool} (l : List Migration)
    (hpq : ∀ x, p x = q x) : l.find? p = l.find? q := by
  induction l with
  | nil => rfl
  | cons a as ih =>
    simp only [List.find?]
    rw [hpq a, ih]

/-- Claim C10: a down run with no target pops the last (under the sorted
snapshot: lexicographically greatest) title off the in-memory history before
the down action of that migration runs; when the action fails, the in-memory
snapshot no longer holds the title while the MIGRATIONS table still records it
(removeEntry runs only after a success), so the snapshot and the durable store
disagree until the engine is re-initialized. -/
theorem down_none_pop_divergence (st : SetState) (t : String) (m : Migration) (e : String)
    (hhsorted : List.Pairwise (fun a b => titleLt a b = true) st.history)
    (hlast : st.history.getLast? = some t)
    (hfind : st.migrations.find? (fun mm => mm.title == t) = some m)
    (hfail : m.down = some e)
    (hstore : t ∈ st.store) :
    runDown st none =
      (⟨st.migrations, st.history.dropLast, st.store,
        st.trace ++ [(t, Direction.down)]⟩, some e)
    ∧ ¬ t ∈ st.history.dropLast
    ∧ t ∈ (runDown st none).1.store
    ∧ (∀ x ∈ st.history, x = t ∨ titleLt x t = true) := by
  obtain ⟨migs, h, s, tr⟩ := st
  dsimp only at hhsorted hlast hfind hstore ⊢
  have hp := List.find?_some hfind
  have hmt : m.title = t := eq_of_beq hp
  have hne0 : h ≠ [] := by
    intro hh
    rw [hh] at hlast
    exact Option.noConfusion hlast
  have hgl : h.getLast hne0 = t := by
    have hg := List.getLast?_eq_getLast h hne0
    rw [hg] at hlast
    injection hlast
  have hsplit : h.dropLast ++ [t] = h := by
    rw [← hgl]
    exact List.dropLast_append_getLast hne0
  have hpw : List.Pairwise (fun a b => titleLt a b = true) (h.dropLast ++ [t]) := by
    rw [hsplit]
    exact hhsorted
  rcases List.pairwise_append.mp hpw with ⟨_, _, hcross⟩
  have hmain : runDown ⟨migs, h, s, tr⟩ none =
      (⟨migs, h.dropLast, s, tr ++ [(t, Direction.down)]⟩, some e) := by
    show next Direction.down [migs.find? (fun x => some x.title == h.getLast?)]
      ⟨migs, h.dropLast, s, tr⟩ = _
    rw [hlast]
    rw [find?_pred_congr migs (fun x => optSome_beq x.title t)]
    rw [hfind]
    simp only [next, action, hfail]
    rw [hmt]
  refine ⟨hmain, ?_, ?_, ?_⟩
  · intro habs
    exact absurd rfl (titleLt_ne (hcross t habs t (by simp)))
  · rw [hmain]
    exact hstore
  · intro x hx
    rw [← hsplit] at hx
    rcases List.mem_append.mp hx with hd | hsing
    · exact Or.inr (hcross x hd t (by simp))
    · exact Or.inl (by simpa using hsing)

/-- Witness for C10: a one-entry history whose down action fails: the snapshot
drops the title, the table keeps it. -/
theorem down_none_pop_divergence_witness :
    runDown ⟨[{ title := "1000-a", up := none, down := some "boom" }],
      ["1000-a"], ["1000-a"], []⟩ none =
      (⟨[{ title := "1000-a", up := none, down := some "boom" }],
        [], ["1000-a"], [("1000-a", Direction.down)]⟩, some "boom") :=
  ((down_none_pop_divergence
    ⟨[{ title := "1000-a", up := none, down := some "boom" }],
      ["1000-a"], ["1000-a"], []⟩ "1000-a"
    { title := "1000-a", up := none, down := some "boom" } "boom"
    (by decide) (by decide) (by decide) (by decide) (by decide)).1).trans (by decide)

/- ------------------------------------------------------------------ -/
/- The registry loader (src/lib/migrate.js)                            -/
/- ------------------------------------------------------------------ -/

/-- Prefix test on character lists (first argument is the pattern). -/
def charsLeadWith : List Char → List Char → Bool
  | [], _ => true
  | _ :: _, [] => false
  | p :: ps, c :: cs => (p == c) && charsLeadWith ps cs

/-- Substring occurrence test on character lists (first argument is the
pattern), the semantics of String.prototype.includes. -/
def charsContain (pat : List Char) : List Char → Bool
  | [] => charsLeadWith pat []
  | c :: cs => charsLeadWith pat (c :: cs) || charsContain pat cs

/-- JavaScript String.prototype.includes. -/
def jsIncludes (s sub : String) : Bool := charsContain sub.data s.data

/-- The loader filter regex /^\d+.*\.js$/ (src/lib/migrate.js line 56).  A
string matches exactly when its first character is a digit and it ends in
".js": the dot-star absorbs the middle, and the two anchored pieces can never
overlap (a string starting with a digit and ending in ".js" has at least four
characters). -/
def migrationFilePattern (file : String) : Bool :=
  (match file.data with
   | [] => false
   | c :: _ => c.isDigit)
  && charsLeadWith ((".js").data.reverse) (file.data.reverse)

/-- exports.load (src/lib/migrate.js lines 46-64): read the directory listing
(abstracted as `files`), keep the names matching the migration pattern, sort
them, and add one migration per file, with the file name as title and the
module actions looked up by `mod`.  There is no duplicate check and no error
path. -/
def load (files : List String) (mod : String → Option String × Option String) :
    List Migration :=
  (jsSort (files.filter migrationFilePattern)).map
    (fun file => { title := file, up := (mod file).1, down := (mod file).2 })

/- ------------------------------------------------------------------ -/
/- Claim C8                                                            -/
/- ------------------------------------------------------------------ -/

/-- Counterexample to C8: two discovered entries resolving to the same title
produce a registry containing the duplicate title twice, and load reports no
error (its result type has no error channel at all). -/
theorem load_duplicate_titles_no_error :
    ((load ["100-a.js", "100-a.js"] (fun _ => (none, none))).map (fun m => m.title)
      = ["100-a.js", "100-a.js"])
    ∧ ¬ ((load ["100-a.js", "100-a.js"] (fun _ => (none, none))).map
        (fun m => m.title)).Nodup := by
  decide

/-- C8 amended: the loader performs no duplicate-title detection: every file
name matching the migration pattern becomes a registry entry with that name as
title, duplicates included, and the load cannot fail. -/
theorem load_appends_all_filtered (files : List String)
    (mod : String → Option String × Option String) :
    (load files mod).map (fun m => m.title) = jsSort (files.filter migrationFilePattern) := by
  show ((jsSort (files.filter migrationFilePattern)).map _).map _ = _
  rw [List.map_map]
  exact List.map_id _

/- ------------------------------------------------------------------ -/
/- History-table bootstrap (src/lib/oracledb.js)                       -/
/- ------------------------------------------------------------------ -/

/-- A database error as observed by the bootstrap guard: it may or may not
carry a message string. -/
structure OracleError where
  message : Option String
deriving DecidableEq

/-- The marker of ORA-00955 (name is already used by an existing object),
the already-exists condition tested by the bootstrap. -/
def ora00955 : String := "00955"

/-- checkMigrationTableExists (src/lib/oracledb.js lines 183-190): run the
table-creation transaction (its outcome is the argument) and swallow the
error unless `err.message && !err.message.includes('00955')` holds, in which
case it is rethrown.  A missing or empty message is falsy in JavaScript, so
such errors are swallowed too. -/
def checkMigrationTableExists (createResult : Except OracleError Unit) :
    Except OracleError Unit :=
  match createResult with
  | Except.ok _ => Except.ok ()
  | Except.error err =>
    match err.message with
    | none => Except.ok ()
    | some msg =>
      if !(msg == "") && !(jsIncludes msg ora00955) then Except.error err
      else Except.ok ()

/- ------------------------------------------------------------------ -/
/- Claim C9                                                            -/
/- ------------------------------------------------------------------ -/

/-- Counterexample to C9: a creation failure whose error carries no message is
not an already-exists failure, yet the bootstrap swallows it and resolves
successfully instead of propagating it. -/
theorem checkMigrationTable_swallows_messageless :
    checkMigrationTableExists (Except.error { message := none }) = Except.ok ()
    ∧ ¬ checkMigrationTableExists (Except.error { message := none })
        = Except.error { message := none } := by
  constructor
  · rfl
  · intro hc
    rw [show checkMigrationTableExists (Except.error { message := none })
      = Except.ok () from rfl] at hc
    exact Except.noConfusion hc

/-- C9 amended: the bootstrap resolves on success; it swallows a failure whose
message contains the 00955 (already exists) marker; it propagates a failure
carrying a nonempty message without the marker; and it also swallows a failure
whose error has no message at all. -/
theorem checkMigrationTable_propagation (err : OracleError) (m : String) :
    (checkMigrationTableExists (Except.ok ()) = Except.ok ())
    ∧ (err.message = some m → jsIncludes m ora00955 = true →
        checkMigrationTableExists (Except.error err) = Except.ok ())
    ∧ (err.message = some m → ¬ m = "" → jsIncludes m ora00955 = false →
        checkMigrationTableExists (Except.error err) = Except.error err)
    ∧ (err.message = none →
        checkMigrationTableExists (Except.error err) = Except.ok ()) := by
  refine ⟨rfl, ?_, ?_, ?_⟩
  · intro hmsg hinc
    simp [checkMigrationTableExists, hmsg, hinc]
  · intro hmsg hne hinc
    simp [checkMigrationTableExists, hmsg, hinc, hne]
  · intro hmsg
    simp [checkMigrationTableExists, hmsg]

/-- Witness for the amended C9 at a concrete ORA-00955 error message (swallowed)
and at a concrete propagation check. -/
theorem checkMigrationTable_propagation_witness :
    checkMigrationTableExists
      (Except.error { message := some "ORA-00955: name is already used" })
      = Except.ok () :=
  (checkMigrationTable_propagation
    { message := some "ORA-00955: name is already used" }
    "ORA-00955: name is already used").2.1 rfl (by decide)
